import Mathlib

/-!
Verification of the IEEE 754 single-precision codec in
`src/ch09_floating_point.py`.

A Python float value is represented here as a pair `(neg : Bool, mag : ℚ)`
standing for the value `(-1)^neg * mag` with `mag ≥ 0`; this keeps the two
zero signs (`+0.0` is `(false, 0)`, `-0.0` is `(true, 0)`).  All arithmetic
performed by the source on the inputs relevant to the claims (comparisons,
`abs`, `int()` truncation, subtraction of the integer part, doubling and
subtracting a bit) is exact in binary64, so modelling it over `ℚ` is faithful.

Bit strings are modelled as `List Bool` (most significant bit first) together
with a rendering function `bitsStr` into the `'0'`/`'1'` strings the source
manipulates.
-/

set_option maxRecDepth 4000

deriving instance DecidableEq for Except

/-- Render one bit the way the source prints it. -/
def bitChar (b : Bool) : Char := if b then '1' else '0'

/-- Render a bit list as the `'0'`/`'1'` string the source builds. -/
def bitsStr (l : List Bool) : String := ⟨l.map bitChar⟩

/-- `int(s, 2)` on a list of already-validated bits. -/
def bitsToNat (l : List Bool) : ℕ := l.foldl (fun a b => 2 * a + (if b then 1 else 0)) 0

/-- The low `w` bits of `n`, most significant first (fixed-width binary). -/
def padBits : ℕ → ℕ → List Bool
  | 0, _ => []
  | w + 1, n => n.testBit w :: padBits w n

/-- Fuel-driven binary length (`len(bin(n)) - 2` for `n ≥ 1`); the fuel makes
the definition structurally recursive so the kernel can evaluate it. -/
def bitLenFuel : ℕ → ℕ → ℕ
  | _, 0 => 0
  | 0, _ + 1 => 0
  | f + 1, n + 1 => bitLenFuel f ((n + 1) / 2) + 1

/-- Number of binary digits of `n` (`1` maps to `1`, `0` maps to `0`). -/
def bitLen (n : ℕ) : ℕ := bitLenFuel n n

/-- `bin(n)[2:]` for `n ≥ 1`: binary digits, most significant first. -/
def natBits (n : ℕ) : List Bool := padBits (bitLen n) n

/-- `format(n, '08b')` for `n ≥ 0`: binary, left-padded with zeros to at least
8 digits, wider when `n ≥ 256`.  (Negative arguments never occur on the
reachable paths of the source, see `manualNormalize`.) -/
def pyFormat08b (n : ℤ) : List Bool := padBits (max 8 (bitLen n.toNat)) n.toNat

/-- The fractional-digit loop of `manual_float_conversion` (source lines
58-66): at each of at most `n` steps double `t`, emit `int(t)` as the next
bit, subtract it, and stop as soon as the remaining fraction is exactly zero
(the bit of the final step is still emitted, matching the `break` placement). -/
def fracBitsAux : ℚ → ℕ → List Bool
  | _, 0 => []
  | t, n + 1 =>
    let b : ℤ := ⌊t * 2⌋
    let t' := t * 2 - b
    decide (b = 1) :: (if t' = 0 then [] else fracBitsAux t' n)

/-- The `(i+1)`-st binary digit of the fractional number `t ∈ [0, 1)`. -/
def fracDigit (t : ℚ) (i : ℕ) : Bool := decide (⌊t * 2 ^ (i + 1)⌋ % 2 = 1)

/-- Result of `struct.unpack('f', ...)`: an IEEE 754 single value.  `finite`
carries the sign separately so that the two zeros stay distinguishable. -/
inductive FloatVal where
  | finite (neg : Bool) (mag : ℚ)
  | inf (neg : Bool)
  | nan
deriving DecidableEq

/-- Round a non-negative rational to the nearest integer, ties to even
(the IEEE 754 default used by the platform packer). -/
def rne (q : ℚ) : ℕ :=
  let n := (⌊q⌋).toNat
  let r := q - n
  if r < 1 / 2 then n
  else if 1 / 2 < r then n + 1
  else if n % 2 = 0 then n else n + 1

/-- `⌊log₂ q⌋` for a positive rational, computed from numerator and
denominator. -/
def floorLog2 (q : ℚ) : ℤ :=
  let a := q.num.toNat
  let b := q.den
  if b ≤ a then (bitLen (a / b) : ℤ) - 1
  else -(bitLen ((b - 1) / a) : ℤ)

/-- Modelled from the spec: `struct.pack('f', x)` (source line 12) is the
platform's bit-exact IEEE 754 single-precision packer — round to nearest,
ties to even; gradual underflow to subnormals and to signed zero; an
`OverflowError` when a finite value exceeds the largest finite single — and
the packed bytes are taken in big-endian order so that the resulting bit
string is most-significant-bit first, as the field slicing on source lines
16-18 assumes.  The result is the 32-element bit list `ieee_bits`. -/
def fp32PackBits (neg : Bool) (mag : ℚ) : Except String (List Bool) :=
  if mag = 0 then .ok (neg :: List.replicate 31 false)
  else
    let e0 := floorLog2 mag
    if e0 < -126 then
      let m := rne (mag * 2 ^ (149 : ℤ))
      if m = 0 then .ok (neg :: List.replicate 31 false)
      else if m < 2 ^ 23 then .ok (neg :: (padBits 8 0 ++ padBits 23 m))
      else .ok (neg :: (padBits 8 1 ++ padBits 23 0))
    else
      let m0 := rne (mag * 2 ^ ((23 : ℤ) - e0))
      let e := if m0 = 2 ^ 24 then e0 + 1 else e0
      let m := if m0 = 2 ^ 24 then 2 ^ 23 else m0
      if 127 < e then .error "float too large to pack with f format"
      else .ok (neg :: (padBits 8 (e + 127).toNat ++ padBits 23 (m - 2 ^ 23)))

/-- The dictionary returned by `decimal_to_ieee754_single` (source lines
20-28). -/
structure IEEE754Single where
  full : String
  sign : String
  exponent : String
  mantissa : String
  sign_val : String
  exponent_val : ℤ
  exponent_biased : ℕ
deriving DecidableEq

/-- Slice the 32-bit string into the dictionary fields exactly as source
lines 16-27 do. -/
def fieldsOfBits (bits : List Bool) : IEEE754Single :=
  let expo := (bits.drop 1).take 8
  let eb := bitsToNat expo
  { full := bitsStr bits
    sign := bitsStr (bits.take 1)
    exponent := bitsStr expo
    mantissa := bitsStr ((bits.drop 9).take 23)
    sign_val := if bits.take 1 = [true] then "-" else "+"
    exponent_val := (eb : ℤ) - 127
    exponent_biased := eb }

/-- `decimal_to_ieee754_single` (source lines 9-28): pack with the platform
packer, then slice the bit string into fields. -/
def decimal_to_ieee754_single (neg : Bool) (mag : ℚ) : Except String IEEE754Single :=
  (fp32PackBits neg mag).map fieldsOfBits

/-- `int(slice, 2)` as applied by the decoder: error on an empty slice or on
a character other than `'0'`/`'1'` (the exotic forms Python's `int` also
accepts — whitespace, signs, underscores — never arise from the repository's
callers and are not modelled). -/
def parseBin (l : List Char) : Except String ℕ :=
  if l.isEmpty then .error "invalid literal for int() with base 2"
  else if l.all (fun c => c == '0' || c == '1') then
    .ok (l.foldl (fun a c => 2 * a + (if c == '1' then 1 else 0)) 0)
  else .error "invalid literal for int() with base 2"

/-- Modelled from the spec: `struct.unpack('f', bytes)` (source line 39) is
the platform IEEE 754 single-precision unpacker, with the four bytes taken
in the same big-endian order as `fp32PackBits`; `w` is the 32-bit word.
Exponent field 0 covers signed zero and subnormals, 255 covers infinities
and NaN, anything else is a normal value. -/
def unpackF32 (w : ℕ) : FloatVal :=
  let sign := decide (w / 2 ^ 31 % 2 = 1)
  let eb : ℕ := w / 2 ^ 23 % 2 ^ 8
  let man : ℕ := w % 2 ^ 23
  if eb = 0 then .finite sign ((man : ℚ) * 2 ^ (-(149 : ℤ)))
  else if eb = 255 then (if man = 0 then .inf sign else .nan)
  else .finite sign ((2 ^ 23 + man : ℚ) * 2 ^ ((eb : ℤ) - 150))

/-- `ieee754_single_to_decimal` (source lines 30-39): parse the four byte
slices `[0:8]`, `[8:16]`, `[16:24]`, `[24:32]` with `int(_, 2)` — the first
failing slice raises, exactly as the Python loop does — then unpack the word.
Python string slicing clamps, so only the first 32 characters are ever read
and short or empty slices arise from short inputs. -/
def ieee754_single_to_decimal (s : String) : Except String FloatVal :=
  match parseBin ((s.data.drop 0).take 8), parseBin ((s.data.drop 8).take 8),
        parseBin ((s.data.drop 16).take 8), parseBin ((s.data.drop 24).take 8) with
  | .ok b0, .ok b1, .ok b2, .ok b3 =>
      .ok (unpackF32 (((b0 * 256 + b1) * 256 + b2) * 256 + b3))
  | .error e, _, _, _ => .error e
  | _, .error e, _, _ => .error e
  | _, _, .error e, _ => .error e
  | _, _, _, .error e => .error e

/-- Source line 46: `sign = 0 if decimal_num >= 0 else 1`.  In Python
`-0.0 >= 0` is `True`, which the value `(-1)^neg * mag` reproduces since
`-0 = 0` in `ℚ`. -/
def manualSign (neg : Bool) (mag : ℚ) : Bool :=
  decide ((if neg then -mag else mag) < 0)

/-- Source lines 51-82 applied to the non-negative magnitude: split into
integer and fractional part, emit digits, and normalize.  Returns the
unbiased exponent and the (untruncated) mantissa digit list, or the
`ValueError` that `frac_binary.index('1')` raises when no `1` digit was
generated.  `int()` truncates toward zero, which on a non-negative argument
is `⌊·⌋`. -/
def manualNormalize (mag : ℚ) : Except String (ℤ × List Bool) :=
  let I := (⌊mag⌋).toNat
  let fracB := fracBitsAux (mag - ⌊mag⌋) 23
  if 0 < I then
    let intB := natBits I
    .ok ((intB.length : ℤ) - 1, intB.tail ++ fracB)
  else
    match fracB.findIdx? (fun b => b) with
    | none => .error "substring not found"
    | some k => .ok (-(k + 1 : ℤ), fracB.drop (k + 1))

/-- `mantissa[:23].ljust(23, '0')` (source line 95), applied to an
already-truncated list. -/
def ljust23 (l : List Bool) : List Bool := l ++ List.replicate (23 - l.length) false

/-- The unbiased exponent computed on source lines 74-81. -/
def manualExponent (mag : ℚ) : Except String ℤ := (manualNormalize mag).map Prod.fst

/-- The 23-bit mantissa field of source line 95. -/
def manualMantissaField (mag : ℚ) : Except String (List Bool) :=
  (manualNormalize mag).map (fun p => ljust23 (p.2.take 23))

/-- The exponent field of source line 90: `format(exponent + 127, '08b')`.
On every reachable path the biased exponent is at least `104` (integer part
positive gives exponent `≥ 0`; otherwise the first `1` is among 23 generated
digits, so exponent `≥ -23`), hence non-negative. -/
def manualExpField (mag : ℚ) : Except String (List Bool) :=
  (manualNormalize mag).map (fun p => pyFormat08b (p.1 + 127))

/-- `manual_float_conversion` (source lines 41-107): sign bit, normalize the
magnitude, bias the exponent, truncate/pad the mantissa, concatenate. -/
def manual_float_conversion (neg : Bool) (mag : ℚ) : Except String String :=
  match manualNormalize |if neg then -mag else mag| with
  | .error e => .error e
  | .ok (expo, mant) =>
      .ok (bitsStr (manualSign neg mag :: (pyFormat08b (expo + 127) ++ ljust23 (mant.take 23))))

/-- The first 23 bits of the true binary expansion of the normalized
significand `mag / 2^⌊log₂ mag⌋ ∈ [1, 2)`: bit `i` (0-based) is the `(i+1)`-st
fractional binary digit.  This is the comparison point named by the spec's
truncation property. -/
def trueMantBit (mag : ℚ) (i : ℕ) : Bool :=
  decide (⌊mag / 2 ^ floorLog2 mag * 2 ^ ((i : ℤ) + 1)⌋ % 2 = 1)

/-- The first 23 true mantissa bits of `mag`. -/
def trueMant23 (mag : ℚ) : List Bool := (List.range 23).map (trueMantBit mag)

/-- Encode with the native packer, then decode the `'full'` field — the
round trip of source lines 125-135. -/
def encode_then_decode (neg : Bool) (mag : ℚ) : Except String FloatVal :=
  (decimal_to_ieee754_single neg mag).bind (fun r => ieee754_single_to_decimal r.full)

/-! ### Binary-length lemmas -/

theorem bitLenFuel_congr (m : ℕ) : ∀ f g : ℕ, m ≤ f → m ≤ g → bitLenFuel f m = bitLenFuel g m := by
  induction m using Nat.strong_induction_on with
  | _ m ih =>
    intro f g hf hg
    cases m with
    | zero => cases f <;> cases g <;> rfl
    | succ m =>
      cases f with
      | zero => omega
      | succ f =>
        cases g with
        | zero => omega
        | succ g =>
          simp only [bitLenFuel]
          have h2 : (m + 1) / 2 < m + 1 := Nat.div_lt_self (Nat.succ_pos m) one_lt_two
          rw [ih ((m + 1) / 2) h2 f g (by omega) (by omega)]

theorem bitLen_succ_div2 (n : ℕ) (h : 0 < n) : bitLen n = bitLen (n / 2) + 1 := by
  cases n with
  | zero => omega
  | succ m =>
    show bitLenFuel (m + 1) (m + 1) = bitLen ((m + 1) / 2) + 1
    have h2 : (m + 1) / 2 < m + 1 := Nat.div_lt_self (Nat.succ_pos m) one_lt_two
    simp only [bitLenFuel, bitLen]
    rw [bitLenFuel_congr ((m + 1) / 2) m ((m + 1) / 2) (by omega) (by omega)]

theorem bitLen_spec (n : ℕ) (h : 0 < n) :
    ∃ k, bitLen n = k + 1 ∧ 2 ^ k ≤ n ∧ n < 2 ^ (k + 1) := by
  induction n using Nat.strong_induction_on with
  | _ n ih =>
    rcases Nat.lt_or_ge n 2 with h2 | h2
    · have hn1 : n = 1 := by omega
      subst hn1
      exact ⟨0, rfl, by norm_num, by norm_num⟩
    · have hd : 0 < n / 2 := by omega
      obtain ⟨k, hk, hk1, hk2⟩ := ih (n / 2) (Nat.div_lt_self (by omega) one_lt_two) hd
      refine ⟨k + 1, ?_, ?_, ?_⟩
      · rw [bitLen_succ_div2 n (by omega), hk]
      · have := Nat.div_add_mod n 2
        calc 2 ^ (k + 1) = 2 * 2 ^ k := by ring
        _ ≤ 2 * (n / 2) := by omega
        _ ≤ n := by omega
      · have := Nat.div_add_mod n 2
        have hmod : n % 2 < 2 := Nat.mod_lt n (by omega)
        calc n = 2 * (n / 2) + n % 2 := (Nat.div_add_mod n 2).symm
        _ < 2 * 2 ^ (k + 1) := by omega
        _ = 2 ^ (k + 1 + 1) := by ring

theorem bitLen_eq_of (n k : ℕ) (h1 : 2 ^ k ≤ n) (h2 : n < 2 ^ (k + 1)) : bitLen n = k + 1 := by
  have hn : 0 < n := lt_of_lt_of_le (Nat.pos_pow_of_pos k (by omega)) h1
  obtain ⟨j, hj, hj1, hj2⟩ := bitLen_spec n hn
  have : j = k := by
    by_contra hne
    rcases Nat.lt_or_ge j k with hlt | hge
    · have : 2 ^ (j + 1) ≤ 2 ^ k := Nat.pow_le_pow_right (by omega) (by omega)
      omega
    · have : 2 ^ (k + 1) ≤ 2 ^ j := Nat.pow_le_pow_right (by omega) (by omega)
      omega
  omega

theorem lt_of_bitLen_le (n w : ℕ) (h : bitLen n ≤ w) : n < 2 ^ w := by
  rcases Nat.eq_zero_or_pos n with h0 | h0
  · subst h0; exact Nat.pos_pow_of_pos w (by omega)
  · obtain ⟨k, hk, _, hk2⟩ := bitLen_spec n h0
    exact lt_of_lt_of_le hk2 (Nat.pow_le_pow_right (by omega) (by omega))

theorem bitLen_le_of_lt (n w : ℕ) (h : n < 2 ^ w) : bitLen n ≤ w := by
  rcases Nat.eq_zero_or_pos n with h0 | h0
  · subst h0; simp [bitLen, bitLenFuel]
  · obtain ⟨k, hk, hk1, _⟩ := bitLen_spec n h0
    by_contra hcon
    have : 2 ^ w ≤ 2 ^ k := Nat.pow_le_pow_right (by omega) (by omega)
    omega

/-! ### Fixed-width binary lemmas -/

theorem padBits_length (w n : ℕ) : (padBits w n).length = w := by
  induction w with
  | zero => rfl
  | succ w ih => simp [padBits, ih]

theorem padBits_getElem (w n i : ℕ) (h : i < w) (h2 : i < (padBits w n).length) :
    (padBits w n)[i] = n.testBit (w - 1 - i) := by
  induction w generalizing i with
  | zero => omega
  | succ w ih =>
    cases i with
    | zero => simp [padBits]
    | succ i =>
      have hi : i < w := by omega
      simp only [padBits]
      rw [List.getElem_cons_succ]
      rw [ih i hi]
      congr 1
      omega

/-! ### Fractional-digit loop lemmas -/

theorem fracBitsAux_length_le (n : ℕ) : ∀ t : ℚ, (fracBitsAux t n).length ≤ n := by
  induction n with
  | zero => intro t; simp [fracBitsAux]
  | succ n ih =>
    intro t
    simp only [fracBitsAux]
    split
    · simp
    · simpa using ih _

theorem fracBitsAux_padded (n : ℕ) :
    ∀ t : ℚ, 0 ≤ t → t < 1 →
      fracBitsAux t n ++ List.replicate (n - (fracBitsAux t n).length) false
        = (List.range n).map (fracDigit t) := by
  induction n with
  | zero => intro t _ _; rfl
  | succ n ih =>
    intro t h0 h1
    have hunf : fracBitsAux t (n + 1)
        = decide (⌊t * 2⌋ = 1) ::
          (if t * 2 - ⌊t * 2⌋ = 0 then [] else fracBitsAux (t * 2 - ⌊t * 2⌋) n) := rfl
    have hb0 : (0 : ℤ) ≤ ⌊t * 2⌋ := Int.floor_nonneg.mpr (by positivity)
    have hb1 : ⌊t * 2⌋ ≤ 1 := by
      have : ⌊t * 2⌋ < 2 := Int.floor_lt.mpr (by push_cast; nlinarith)
      omega
    have hfr0 : 0 ≤ t * 2 - ⌊t * 2⌋ := by
      have := Int.floor_le (t * 2); linarith
    have hfr1 : t * 2 - ⌊t * 2⌋ < 1 := by
      have := Int.lt_floor_add_one (t * 2); linarith
    have hhead : decide (⌊t * 2⌋ = 1) = fracDigit t 0 := by
      have hpow : t * 2 ^ (0 + 1) = t * 2 := by ring
      unfold fracDigit
      rw [hpow, decide_eq_decide]
      omega
    have htail : ∀ j : ℕ, fracDigit t (j + 1) = fracDigit (t * 2 - ⌊t * 2⌋) j := by
      intro j
      unfold fracDigit
      rw [decide_eq_decide]
      have hexp : t * 2 ^ (j + 1 + 1) = (t * 2 - ⌊t * 2⌋) * 2 ^ (j + 1) + ⌊t * 2⌋ * 2 ^ (j + 1) := by
        ring
      have hflr : ⌊t * 2 ^ (j + 1 + 1)⌋
          = ⌊(t * 2 - ⌊t * 2⌋) * 2 ^ (j + 1)⌋ + ⌊t * 2⌋ * 2 ^ (j + 1) := by
        rw [hexp]
        have hc : (⌊t * 2⌋ : ℚ) * 2 ^ (j + 1) = ((⌊t * 2⌋ * 2 ^ (j + 1) : ℤ) : ℚ) := by
          push_cast; ring
        rw [hc, Int.floor_add_int]
      rw [hflr]
      have heven : (⌊(t * 2 - ⌊t * 2⌋) * 2 ^ (j + 1)⌋ + ⌊t * 2⌋ * 2 ^ (j + 1)) % 2
          = ⌊(t * 2 - ⌊t * 2⌋) * 2 ^ (j + 1)⌋ % 2 := by
        have h2 : ⌊t * 2⌋ * 2 ^ (j + 1) = (⌊t * 2⌋ * 2 ^ j) * 2 := by ring
        rw [h2, Int.add_mul_emod_self]
      rw [heven]
    rw [hunf, List.range_succ_eq_map, List.map_cons, List.map_map]
    rcases eq_or_ne (t * 2 - ⌊t * 2⌋) 0 with hz | hz
    · rw [if_pos hz]
      simp only [List.cons_append, List.nil_append, List.length_cons, List.length_nil]
      rw [hhead]
      congr 1
      have hn : n + 1 - (0 + 1) = n := by omega
      rw [hn]
      symm
      rw [List.eq_replicate_iff]
      refine ⟨by simp, ?_⟩
      intro b hb
      rw [List.mem_map] at hb
      obtain ⟨j, _, hjb⟩ := hb
      rw [← hjb]
      show fracDigit t (j + 1) = false
      rw [htail j, hz]
      simp [fracDigit]
    · rw [if_neg hz]
      simp only [List.cons_append, List.length_cons]
      rw [hhead]
      congr 1
      have harith : n + 1 - ((fracBitsAux (t * 2 - ⌊t * 2⌋) n).length + 1)
          = n - (fracBitsAux (t * 2 - ⌊t * 2⌋) n).length := by omega
      rw [harith, ih (t * 2 - ⌊t * 2⌋) hfr0 hfr1]
      apply List.map_congr_left
      intro j _
      simp only [Function.comp_apply]
      exact (htail j).symm

theorem fracBitsAux_padded_length (n : ℕ) (t : ℚ) (h0 : 0 ≤ t) (h1 : t < 1) :
    (fracBitsAux t n ++ List.replicate (n - (fracBitsAux t n).length) false).length = n := by
  rw [fracBitsAux_padded n t h0 h1, List.length_map, List.length_range]

theorem fracBitsAux_getElem (n : ℕ) (t : ℚ) (h0 : 0 ≤ t) (h1 : t < 1) (j : ℕ)
    (hj : j < (fracBitsAux t n).length) :
    (fracBitsAux t n)[j] = fracDigit t j := by
  have hjn : j < n := lt_of_lt_of_le hj (fracBitsAux_length_le n t)
  have h := List.getElem_of_eq (fracBitsAux_padded n t h0 h1)
      (i := j) (by rw [List.length_append, List.length_replicate]
                   have := fracBitsAux_length_le n t; omega)
  rw [List.getElem_append_left hj] at h
  rw [h, List.getElem_map, List.getElem_range]

theorem fracDigit_false_of_ge (n : ℕ) (t : ℚ) (h0 : 0 ≤ t) (h1 : t < 1) (j : ℕ)
    (hj1 : (fracBitsAux t n).length ≤ j) (hj2 : j < n) :
    fracDigit t j = false := by
  have hlenp : j < (fracBitsAux t n ++ List.replicate (n - (fracBitsAux t n).length) false).length := by
    rw [fracBitsAux_padded_length n t h0 h1]; exact hj2
  have h2 := List.getElem_of_eq (fracBitsAux_padded n t h0 h1) hlenp
  rw [List.getElem_append_right hj1, List.getElem_replicate, List.getElem_map,
    List.getElem_range] at h2
  exact h2.symm

theorem fracDigit_small (t : ℚ) (h0 : 0 ≤ t) (hs : t < 1 / 2 ^ 23) (j : ℕ) (hj : j < 23) :
    fracDigit t j = false := by
  unfold fracDigit
  have hfl : ⌊t * 2 ^ (j + 1)⌋ = 0 := by
    rw [Int.floor_eq_zero_iff]
    constructor
    · positivity
    · have hle : (2 : ℚ) ^ (j + 1) ≤ 2 ^ 23 := by
        apply pow_le_pow_right₀ (by norm_num)
        omega
      have h23 : (0 : ℚ) < 2 ^ 23 := by positivity
      calc t * 2 ^ (j + 1) < (1 / 2 ^ 23) * 2 ^ (j + 1) := by
            apply mul_lt_mul_of_pos_right hs (by positivity)
        _ ≤ (1 / 2 ^ 23) * 2 ^ 23 := by
            apply mul_le_mul_of_nonneg_left hle (by positivity)
        _ = 1 := by field_simp
  rw [hfl]
  simp

theorem fracBitsAux_findIdx_none (t : ℚ) (h0 : 0 ≤ t) (hs : t < 1 / 2 ^ 23) :
    (fracBitsAux t 23).findIdx? (fun b => b) = none := by
  have h1 : t < 1 := by
    have : (1 : ℚ) / 2 ^ 23 ≤ 1 := by norm_num
    linarith
  rw [List.findIdx?_eq_none_iff]
  intro b hb
  have hmem : b ∈ fracBitsAux t 23 ++ List.replicate (23 - (fracBitsAux t 23).length) false :=
    List.mem_append_left _ hb
  rw [fracBitsAux_padded 23 t h0 h1, List.mem_map] at hmem
  obtain ⟨j, hj, hjb⟩ := hmem
  rw [List.mem_range] at hj
  rw [← hjb, fracDigit_small t h0 hs j hj]

/-! ### floorLog2 lemmas -/

theorem floorLog2_def (q : ℚ) : floorLog2 q =
    if q.den ≤ q.num.toNat then (bitLen (q.num.toNat / q.den) : ℤ) - 1
    else -(bitLen ((q.den - 1) / q.num.toNat) : ℤ) := rfl

theorem floorLog2_spec (q : ℚ) (h : 0 < q) :
    (2 : ℚ) ^ floorLog2 q ≤ q ∧ q < 2 ^ (floorLog2 q + 1) := by
  have hnum : 0 < q.num := Rat.num_pos.mpr h
  have ha0 : 0 < q.num.toNat := by omega
  have hb0 : 0 < q.den := q.den_pos
  have hcast : ((q.num.toNat : ℚ)) = (q.num : ℚ) := by
    have := Int.toNat_of_nonneg hnum.le
    exact_mod_cast congrArg (fun z : ℤ => (z : ℚ)) this
  have hq : ((q.num.toNat : ℚ)) / (q.den : ℚ) = q := by
    rw [hcast]; exact Rat.num_div_den q
  have hbQ : (0 : ℚ) < (q.den : ℚ) := by exact_mod_cast hb0
  rw [floorLog2_def]
  by_cases hab : q.den ≤ q.num.toNat
  · rw [if_pos hab]
    have hn0 : 0 < q.num.toNat / q.den := (Nat.one_le_div_iff hb0).mpr hab
    obtain ⟨k, hk, hk1, hk2⟩ := bitLen_spec _ hn0
    rw [hk]
    have hksimp : ((k : ℤ) + 1) - 1 = (k : ℤ) := by ring
    push_cast
    rw [hksimp]
    constructor
    · have hnat : 2 ^ k * q.den ≤ q.num.toNat := (Nat.le_div_iff_mul_le hb0).mp hk1
      rw [show ((2 : ℚ) ^ (k : ℤ)) = ((2 ^ k : ℕ) : ℚ) by push_cast; rw [zpow_natCast]]
      rw [← hq, le_div_iff₀ hbQ]
      exact_mod_cast hnat
    · have hnat : q.num.toNat < 2 ^ (k + 1) * q.den := (Nat.div_lt_iff_lt_mul hb0).mp hk2
      rw [show ((2 : ℚ) ^ ((k : ℤ) + 1)) = ((2 ^ (k + 1) : ℕ) : ℚ) by
        push_cast; rw [← zpow_natCast]; push_cast; ring_nf]
      rw [← hq, div_lt_iff₀ hbQ]
      exact_mod_cast hnat
  · rw [if_neg hab]
    push_neg at hab
    have hsub : 1 ≤ (q.den - 1) / q.num.toNat := by
      rw [Nat.one_le_div_iff ha0]; omega
    obtain ⟨k, hk, hk1, hk2⟩ := bitLen_spec _ hsub
    rw [hk]
    push_cast
    have haQ : (0 : ℚ) < (q.num.toNat : ℚ) := by exact_mod_cast ha0
    constructor
    · have hnat : q.den ≤ q.num.toNat * 2 ^ (k + 1) := by
        have h1 := (Nat.div_lt_iff_lt_mul ha0).mp hk2
        have h2 : 2 ^ (k + 1) * q.num.toNat = q.num.toNat * 2 ^ (k + 1) := Nat.mul_comm _ _
        omega
      rw [show ((2 : ℚ) ^ (-((k : ℤ) + 1))) = 1 / ((2 ^ (k + 1) : ℕ) : ℚ) by
        rw [zpow_neg, one_div]
        congr 1
        push_cast
        rw [← zpow_natCast]
        push_cast
        ring_nf]
      rw [← hq, div_le_div_iff₀ (by positivity) hbQ]
      have : (1 : ℚ) * (q.den : ℚ) = (q.den : ℚ) := by ring
      rw [this]
      calc ((q.den : ℚ)) ≤ ((q.num.toNat * 2 ^ (k + 1) : ℕ) : ℚ) := by exact_mod_cast hnat
        _ = (q.num.toNat : ℚ) * ((2 ^ (k + 1) : ℕ) : ℚ) := by push_cast; ring
    · have hnat : q.num.toNat * 2 ^ k < q.den := by
        have h1 := (Nat.le_div_iff_mul_le ha0).mp hk1
        have h2 : 2 ^ k * q.num.toNat = q.num.toNat * 2 ^ k := Nat.mul_comm _ _
        omega
      rw [show (-((k : ℤ) + 1) + 1) = -(k : ℤ) by ring]
      rw [show ((2 : ℚ) ^ (-(k : ℤ))) = 1 / ((2 ^ k : ℕ) : ℚ) by
        rw [zpow_neg, one_div]
        congr 1
        push_cast
        rw [zpow_natCast]]
      rw [← hq, div_lt_div_iff₀ hbQ (by positivity)]
      calc (q.num.toNat : ℚ) * ((2 ^ k : ℕ) : ℚ) = ((q.num.toNat * 2 ^ k : ℕ) : ℚ) := by push_cast; ring
        _ < (q.den : ℚ) := by exact_mod_cast hnat
        _ = 1 * (q.den : ℚ) := by ring

theorem floorLog2_eq_of (q : ℚ) (e : ℤ) (h1 : (2 : ℚ) ^ e ≤ q) (h2 : q < 2 ^ (e + 1)) :
    floorLog2 q = e := by
  have hq : 0 < q := lt_of_lt_of_le (by positivity) h1
  obtain ⟨hs1, hs2⟩ := floorLog2_spec q hq
  by_contra hne
  rcases lt_or_gt_of_ne hne with hlt | hgt
  · have : (2 : ℚ) ^ (floorLog2 q + 1) ≤ 2 ^ e := by
      apply zpow_le_zpow_right₀ (by norm_num)
      omega
    linarith
  · have : (2 : ℚ) ^ (e + 1) ≤ 2 ^ floorLog2 q := by
      apply zpow_le_zpow_right₀ (by norm_num)
      omega
    linarith

/-! ### Manual-encoder lemmas for magnitudes at least 1 -/

theorem floor_toNat_bounds (mag : ℚ) (h : 1 ≤ mag) :
    1 ≤ (⌊mag⌋).toNat ∧ ((⌊mag⌋).toNat : ℚ) ≤ mag ∧ mag < (⌊mag⌋).toNat + 1 := by
  have h0 : (1 : ℤ) ≤ ⌊mag⌋ := by
    rw [Int.le_floor]; exact_mod_cast h
  have ht : ((⌊mag⌋).toNat : ℤ) = ⌊mag⌋ := Int.toNat_of_nonneg (by omega)
  have htq : ((⌊mag⌋).toNat : ℚ) = ((⌊mag⌋ : ℤ) : ℚ) := by
    exact_mod_cast congrArg (fun z : ℤ => (z : ℚ)) ht
  refine ⟨by omega, ?_, ?_⟩
  · calc ((⌊mag⌋).toNat : ℚ) = ((⌊mag⌋ : ℤ) : ℚ) := htq
      _ ≤ mag := Int.floor_le mag
  · calc mag < ⌊mag⌋ + 1 := Int.lt_floor_add_one mag
      _ = ((⌊mag⌋).toNat : ℚ) + 1 := by rw [htq]

theorem floorLog2_eq_bitLen_floor (mag : ℚ) (h : 1 ≤ mag) :
    floorLog2 mag = (bitLen (⌊mag⌋).toNat : ℤ) - 1 := by
  obtain ⟨hI1, hIle, hIlt⟩ := floor_toNat_bounds mag h
  obtain ⟨k, hk, hk1, hk2⟩ := bitLen_spec _ hI1
  rw [hk]
  push_cast
  rw [show ((k : ℤ) + 1) - 1 = (k : ℤ) by ring]
  apply floorLog2_eq_of
  · calc (2 : ℚ) ^ (k : ℤ) = ((2 ^ k : ℕ) : ℚ) := by push_cast; rw [zpow_natCast]
      _ ≤ ((⌊mag⌋).toNat : ℚ) := by exact_mod_cast hk1
      _ ≤ mag := hIle
  · calc mag < ((⌊mag⌋).toNat : ℚ) + 1 := hIlt
      _ ≤ ((2 ^ (k + 1) : ℕ) : ℚ) := by exact_mod_cast hk2
      _ = (2 : ℚ) ^ ((k : ℤ) + 1) := by
          push_cast
          rw [← zpow_natCast]
          push_cast
          ring_nf

theorem int_floor_div_nat (a : ℚ) (n : ℕ) (hn : 0 < n) :
    ⌊a / (n : ℚ)⌋ = ⌊a⌋ / (n : ℤ) := by
  have hnQ : (0 : ℚ) < (n : ℚ) := by exact_mod_cast hn
  have hnZ : (0 : ℤ) < (n : ℤ) := by exact_mod_cast hn
  have hdm := Int.ediv_add_emod ⌊a⌋ (n : ℤ)
  have hr0 : 0 ≤ ⌊a⌋ % (n : ℤ) := Int.emod_nonneg ⌊a⌋ (by omega)
  have hr1 : ⌊a⌋ % (n : ℤ) < (n : ℤ) := Int.emod_lt_of_pos ⌊a⌋ hnZ
  have hfl := Int.floor_le a
  have hfu := Int.lt_floor_add_one a
  rw [Int.floor_eq_iff]
  constructor
  · rw [le_div_iff₀ hnQ]
    have hcast : ((⌊a⌋ / (n : ℤ) : ℤ) : ℚ) * (n : ℚ) = (((n : ℤ) * (⌊a⌋ / (n : ℤ)) : ℤ) : ℚ) := by
      push_cast; ring
    rw [hcast]
    calc (((n : ℤ) * (⌊a⌋ / (n : ℤ)) : ℤ) : ℚ) ≤ ((⌊a⌋ : ℤ) : ℚ) := by
          exact_mod_cast by omega
      _ ≤ a := hfl
  · rw [div_lt_iff₀ hnQ]
    have hcast : (((⌊a⌋ / (n : ℤ) : ℤ) : ℚ) + 1) * (n : ℚ)
        = (((⌊a⌋ / (n : ℤ) + 1) * (n : ℤ) : ℤ) : ℚ) := by push_cast; ring
    rw [hcast]
    calc a < ((⌊a⌋ : ℤ) : ℚ) + 1 := hfu
      _ = (((⌊a⌋ + 1 : ℤ)) : ℚ) := by push_cast; ring
      _ ≤ (((⌊a⌋ / (n : ℤ) + 1) * (n : ℤ) : ℤ) : ℚ) := by
          have : (⌊a⌋ + 1 : ℤ) ≤ (⌊a⌋ / (n : ℤ) + 1) * (n : ℤ) := by nlinarith [hdm, hr0, hr1]
          exact_mod_cast this

theorem trueMantBit_int (mag : ℚ) (h : 1 ≤ mag) (k i : ℕ)
    (hk : bitLen (⌊mag⌋).toNat = k + 1) (hi : i < k) :
    trueMantBit mag i = (⌊mag⌋).toNat.testBit (k - 1 - i) := by
  have hflog : floorLog2 mag = (k : ℤ) := by
    rw [floorLog2_eq_bitLen_floor mag h, hk]; push_cast; ring
  have hmag0 : (0 : ℚ) ≤ mag := by linarith
  have ht : ((⌊mag⌋).toNat : ℤ) = ⌊mag⌋ := Int.toNat_of_nonneg (Int.floor_nonneg.mpr hmag0)
  unfold trueMantBit
  rw [hflog]
  have hexp : mag / 2 ^ (k : ℤ) * 2 ^ ((i : ℤ) + 1) = mag / ((2 ^ (k - 1 - i) : ℕ) : ℚ) := by
    have hz : ((2 ^ (k - 1 - i) : ℕ) : ℚ) = (2 : ℚ) ^ (((k - 1 - i : ℕ) : ℤ)) := by
      push_cast; rw [zpow_natCast]
    rw [hz, div_mul_eq_mul_div, mul_div_assoc, ← zpow_sub₀ (two_ne_zero)]
    rw [div_eq_mul_inv, ← zpow_neg]
    rw [show (i : ℤ) + 1 - (k : ℤ) = -(((k - 1 - i : ℕ)) : ℤ) from by omega]
  rw [hexp, int_floor_div_nat mag (2 ^ (k - 1 - i)) (Nat.pos_pow_of_pos _ (by omega))]
  rw [Nat.testBit_to_div_mod, decide_eq_decide]
  rw [← ht]
  norm_cast

theorem trueMantBit_frac (mag : ℚ) (h : 1 ≤ mag) (k j : ℕ)
    (hk : bitLen (⌊mag⌋).toNat = k + 1) :
    trueMantBit mag (k + j) = fracDigit (mag - ⌊mag⌋) j := by
  have hflog : floorLog2 mag = (k : ℤ) := by
    rw [floorLog2_eq_bitLen_floor mag h, hk]; push_cast; ring
  unfold trueMantBit fracDigit
  rw [hflog, decide_eq_decide]
  have hexp : mag / 2 ^ (k : ℤ) * 2 ^ ((((k + j : ℕ)) : ℤ) + 1) = mag * (2 : ℚ) ^ (j + 1) := by
    rw [div_mul_eq_mul_div, mul_div_assoc, ← zpow_sub₀ (two_ne_zero)]
    have harg : (((k + j : ℕ)) : ℤ) + 1 - (k : ℤ) = ((j + 1 : ℕ) : ℤ) := by push_cast; ring
    rw [harg, zpow_natCast]
  rw [hexp]
  have hsplit : mag * (2 : ℚ) ^ (j + 1)
      = (mag - ⌊mag⌋) * 2 ^ (j + 1) + ((⌊mag⌋ * 2 ^ (j + 1) : ℤ) : ℚ) := by
    push_cast; ring
  rw [hsplit, Int.floor_add_int]
  have heven : (⌊(mag - ⌊mag⌋) * 2 ^ (j + 1)⌋ + ⌊mag⌋ * 2 ^ (j + 1)) % 2
      = ⌊(mag - ⌊mag⌋) * 2 ^ (j + 1)⌋ % 2 := by
    have h2 : ⌊mag⌋ * 2 ^ (j + 1) = (⌊mag⌋ * 2 ^ j) * 2 := by ring
    rw [h2, Int.add_mul_emod_self]
  rw [heven]

theorem getElem_take_of_lt {α : Type} (l : List α) (n m : ℕ) (hm : m < (l.take n).length)
    (hm2 : m < l.length) :
    (l.take n)[m] = l[m] := by
  rw [List.length_take] at hm
  have h1 : m < n := by omega
  have h2 : m < l.length := by omega
  have hq := List.getElem?_take_of_lt (l := l) (n := n) (m := m) h1
  rw [List.getElem?_eq_getElem (by rw [List.length_take]; omega),
    List.getElem?_eq_getElem h2] at hq
  exact Option.some.inj hq

theorem ljust23_length (l : List Bool) (h : l.length ≤ 23) : (ljust23 l).length = 23 := by
  unfold ljust23
  rw [List.length_append, List.length_replicate]
  omega

theorem manualNormalize_of_one_le (mag : ℚ) (h : 1 ≤ mag) :
    manualNormalize mag = .ok ((bitLen (⌊mag⌋).toNat : ℤ) - 1,
      (natBits (⌊mag⌋).toNat).tail ++ fracBitsAux (mag - ⌊mag⌋) 23) := by
  obtain ⟨hI1, _, _⟩ := floor_toNat_bounds mag h
  simp only [manualNormalize]
  rw [if_pos (by omega : 0 < (⌊mag⌋).toNat)]
  simp [natBits, padBits_length]

theorem manualMantissa_true (mag : ℚ) (h : 1 ≤ mag) :
    ljust23 (((natBits (⌊mag⌋).toNat).tail ++ fracBitsAux (mag - ⌊mag⌋) 23).take 23)
      = trueMant23 mag := by
  obtain ⟨hI1, hIle, hIlt⟩ := floor_toNat_bounds mag h
  obtain ⟨k, hk, hk1, hk2⟩ := bitLen_spec _ hI1
  have hfr0 : 0 ≤ mag - ⌊mag⌋ := by have := Int.floor_le mag; linarith
  have hfr1 : mag - ⌊mag⌋ < 1 := by have := Int.lt_floor_add_one mag; linarith
  have htail : (natBits (⌊mag⌋).toNat).tail = padBits k (⌊mag⌋).toNat := by
    rw [natBits, hk]
    rfl
  rw [htail]
  have hlf : (fracBitsAux (mag - ⌊mag⌋) 23).length ≤ 23 := fracBitsAux_length_le 23 _
  have hpadlen : (padBits k (⌊mag⌋).toNat).length = k := padBits_length k _
  have hmantlen : (((padBits k (⌊mag⌋).toNat ++ fracBitsAux (mag - ⌊mag⌋) 23).take 23)).length
      = min 23 (k + (fracBitsAux (mag - ⌊mag⌋) 23).length) := by
    rw [List.length_take, List.length_append, hpadlen]
  apply List.ext_getElem
  · rw [ljust23_length _ (by omega)]
    unfold trueMant23
    rw [List.length_map, List.length_range]
  · intro i hi1 hi2
    have hi23 : i < 23 := by
      rw [ljust23_length _ (by omega)] at hi1; exact hi1
    have hrhs : (trueMant23 mag)[i] = trueMantBit mag i := by
      unfold trueMant23
      rw [List.getElem_map, List.getElem_range]
    rw [hrhs]
    unfold ljust23
    by_cases hcase : i < (((padBits k (⌊mag⌋).toNat ++ fracBitsAux (mag - ⌊mag⌋) 23).take 23)).length
    · rw [List.getElem_append_left hcase, getElem_take_of_lt _ _ _ hcase
        (by rw [List.length_take] at hcase; omega)]
      by_cases hik : i < k
      · rw [List.getElem_append_left (by rw [hpadlen]; exact hik),
          padBits_getElem k _ i hik (by rw [padBits_length]; exact hik)]
        exact (trueMantBit_int mag h k i hk hik).symm
      · push_neg at hik
        rw [List.getElem_append_right (by rw [hpadlen]; exact hik)]
        have hjlt : i - (padBits k (⌊mag⌋).toNat).length < (fracBitsAux (mag - ⌊mag⌋) 23).length := by
          rw [hpadlen]
          rw [hmantlen] at hcase
          omega
        rw [fracBitsAux_getElem 23 _ hfr0 hfr1 _ hjlt]
        rw [hpadlen]
        have hik' : k + (i - k) = i := by omega
        conv_rhs => rw [← hik']
        exact (trueMantBit_frac mag h k (i - k) hk).symm
    · push_neg at hcase
      rw [List.getElem_append_right hcase, List.getElem_replicate]
      have hik : k ≤ i := by rw [hmantlen] at hcase; omega
      have hlfle : (fracBitsAux (mag - ⌊mag⌋) 23).length ≤ i - k := by
        rw [hmantlen] at hcase; omega
      have hfracbit : trueMantBit mag i = fracDigit (mag - ⌊mag⌋) (i - k) := by
        have hik' : k + (i - k) = i := by omega
        conv_lhs => rw [← hik']
        exact trueMantBit_frac mag h k (i - k) hk
      rw [hfracbit]
      exact (fracDigit_false_of_ge 23 _ hfr0 hfr1 (i - k) hlfle (by omega)).symm

/-! ### Exact dyadic values -/

theorem natCast_div_mod_decide (M n : ℕ) :
    decide (((M : ℤ) / ((2 ^ n : ℕ) : ℤ)) % 2 = 1) = M.testBit n := by
  rw [Nat.testBit_to_div_mod, decide_eq_decide]
  norm_cast

theorem dyadic_bounds (M e : ℕ) (hM1 : 2 ^ 23 ≤ M) (hM2 : M < 2 ^ 24) :
    (2 : ℚ) ^ (e : ℤ) ≤ (M : ℚ) * 2 ^ ((e : ℤ) - 23) ∧
      (M : ℚ) * 2 ^ ((e : ℤ) - 23) < 2 ^ ((e : ℤ) + 1) := by
  have hpos : (0 : ℚ) < 2 ^ ((e : ℤ) - 23) := zpow_pos (by norm_num) _
  constructor
  · have h1 : ((2 : ℚ) ^ (23 : ℕ)) ≤ (M : ℚ) := by exact_mod_cast hM1
    calc (2 : ℚ) ^ (e : ℤ) = 2 ^ (23 : ℤ) * 2 ^ ((e : ℤ) - 23) := by
          rw [← zpow_add₀ (two_ne_zero)]; congr 1; ring
      _ ≤ (M : ℚ) * 2 ^ ((e : ℤ) - 23) := by
          apply mul_le_mul_of_nonneg_right _ hpos.le
          calc (2 : ℚ) ^ (23 : ℤ) = (2 : ℚ) ^ (23 : ℕ) := by
                rw [← zpow_natCast]; norm_num
            _ ≤ (M : ℚ) := h1
  · have h2 : (M : ℚ) < ((2 : ℚ) ^ (24 : ℕ)) := by exact_mod_cast hM2
    calc (M : ℚ) * 2 ^ ((e : ℤ) - 23) < (2 : ℚ) ^ (24 : ℕ) * 2 ^ ((e : ℤ) - 23) :=
          mul_lt_mul_of_pos_right h2 hpos
      _ = 2 ^ ((e : ℤ) + 1) := by
          rw [show ((2 : ℚ) ^ (24 : ℕ)) = (2 : ℚ) ^ (24 : ℤ) from by rw [← zpow_natCast]; norm_num]
          rw [← zpow_add₀ (two_ne_zero)]
          congr 1
          ring

theorem floorLog2_dyadic (M e : ℕ) (hM1 : 2 ^ 23 ≤ M) (hM2 : M < 2 ^ 24) :
    floorLog2 ((M : ℚ) * 2 ^ ((e : ℤ) - 23)) = (e : ℤ) := by
  obtain ⟨hlo, hhi⟩ := dyadic_bounds M e hM1 hM2
  exact floorLog2_eq_of _ _ hlo hhi

theorem trueMant23_dyadic (M e : ℕ) (hM1 : 2 ^ 23 ≤ M) (hM2 : M < 2 ^ 24) :
    trueMant23 ((M : ℚ) * 2 ^ ((e : ℤ) - 23)) = padBits 23 (M - 2 ^ 23) := by
  apply List.ext_getElem
  · unfold trueMant23
    rw [List.length_map, List.length_range, padBits_length]
  · intro i hi1 hi2
    have hi23 : i < 23 := by
      unfold trueMant23 at hi1
      rw [List.length_map, List.length_range] at hi1
      exact hi1
    have hlhs : (trueMant23 ((M : ℚ) * 2 ^ ((e : ℤ) - 23)))[i]
        = trueMantBit ((M : ℚ) * 2 ^ ((e : ℤ) - 23)) i := by
      unfold trueMant23
      rw [List.getElem_map, List.getElem_range]
    rw [hlhs, padBits_getElem 23 _ i hi23 (by rw [padBits_length]; exact hi23)]
    unfold trueMantBit
    rw [floorLog2_dyadic M e hM1 hM2]
    have hexp : (M : ℚ) * 2 ^ ((e : ℤ) - 23) / 2 ^ (e : ℤ) * 2 ^ ((i : ℤ) + 1)
        = (M : ℚ) / ((2 ^ (23 - 1 - i) : ℕ) : ℚ) := by
      rw [show ((2 ^ (23 - 1 - i) : ℕ) : ℚ) = (2 : ℚ) ^ ((23 - 1 - i : ℕ) : ℤ) from by
        push_cast; rw [zpow_natCast]]
      rw [div_eq_mul_inv, ← zpow_neg, div_eq_mul_inv, ← zpow_neg, mul_assoc, mul_assoc,
        ← zpow_add₀ (two_ne_zero), ← zpow_add₀ (two_ne_zero)]
      congr 1
      congr 1
      omega
    rw [hexp, int_floor_div_nat (M : ℚ) (2 ^ (23 - 1 - i)) (Nat.pos_pow_of_pos _ (by omega))]
    rw [Int.floor_natCast]
    rw [natCast_div_mod_decide M (23 - 1 - i)]
    rw [show M - 2 ^ 23 = M % 2 ^ 23 from by omega, Nat.testBit_mod_two_pow]
    have : 23 - 1 - i < 23 := by omega
    simp [this]

theorem pyFormat08b_of_lt (n : ℤ) (h0 : 0 ≤ n) (h : n < 256) :
    pyFormat08b n = padBits 8 n.toNat := by
  unfold pyFormat08b
  congr 1
  have hlt : n.toNat < 2 ^ 8 := by omega
  have := bitLen_le_of_lt n.toNat 8 hlt
  omega

theorem rne_natCast (n : ℕ) : rne (n : ℚ) = n := by
  unfold rne
  rw [Int.floor_natCast, Int.toNat_natCast]
  norm_num

theorem fp32PackBits_exact (neg : Bool) (M e : ℕ) (hM1 : 2 ^ 23 ≤ M) (hM2 : M < 2 ^ 24)
    (he : e ≤ 127) :
    fp32PackBits neg ((M : ℚ) * 2 ^ ((e : ℤ) - 23))
      = .ok (neg :: (padBits 8 (e + 127) ++ padBits 23 (M - 2 ^ 23))) := by
  have hMQ : (0 : ℚ) < (M : ℚ) := by exact_mod_cast (by omega : 0 < M)
  have hpos : (0 : ℚ) < (M : ℚ) * 2 ^ ((e : ℤ) - 23) :=
    mul_pos hMQ (zpow_pos (by norm_num) _)
  have hflog := floorLog2_dyadic M e hM1 hM2
  have hM : ((M : ℚ) * 2 ^ ((e : ℤ) - 23)) * 2 ^ ((23 : ℤ) - (e : ℤ)) = (M : ℚ) := by
    rw [mul_assoc, ← zpow_add₀ (two_ne_zero)]
    rw [show ((e : ℤ) - 23) + ((23 : ℤ) - (e : ℤ)) = 0 from by ring, zpow_zero, mul_one]
  simp only [fp32PackBits]
  rw [if_neg (ne_of_gt hpos), hflog]
  rw [if_neg (by omega : ¬ ((e : ℤ) < -126))]
  rw [hM, rne_natCast]
  simp only [if_neg (by omega : ¬ (M = 2 ^ 24))]
  rw [if_neg (by omega : ¬ ((127 : ℤ) < (e : ℤ)))]
  rw [show ((e : ℤ) + 127).toNat = e + 127 from by omega]

theorem bitLen_floor_dyadic (M e : ℕ) (hM1 : 2 ^ 23 ≤ M) (hM2 : M < 2 ^ 24) :
    bitLen ((⌊(M : ℚ) * 2 ^ ((e : ℤ) - 23)⌋).toNat) = e + 1 := by
  obtain ⟨hlo, hhi⟩ := dyadic_bounds M e hM1 hM2
  have hfl : ((2 ^ e : ℕ) : ℤ) ≤ ⌊(M : ℚ) * 2 ^ ((e : ℤ) - 23)⌋ := by
    rw [Int.le_floor]
    calc (((2 ^ e : ℕ) : ℤ) : ℚ) = (2 : ℚ) ^ (e : ℤ) := by push_cast; rw [zpow_natCast]
      _ ≤ _ := hlo
  have hfu : ⌊(M : ℚ) * 2 ^ ((e : ℤ) - 23)⌋ < ((2 ^ (e + 1) : ℕ) : ℤ) := by
    rw [Int.floor_lt]
    calc (M : ℚ) * 2 ^ ((e : ℤ) - 23) < 2 ^ ((e : ℤ) + 1) := hhi
      _ = (((2 ^ (e + 1) : ℕ) : ℤ) : ℚ) := by
          push_cast
          rw [← zpow_natCast]
          push_cast
          ring_nf
  apply bitLen_eq_of
  · omega
  · omega

theorem manualSign_of_pos (neg : Bool) (mag : ℚ) (h : 0 < mag) : manualSign neg mag = neg := by
  cases neg
  · simp only [manualSign, Bool.false_eq_true, if_false, decide_eq_false_iff_not, not_lt]
    linarith
  · simp only [manualSign, if_true, decide_eq_true_eq]
    linarith

theorem manual_of_one_le (neg : Bool) (mag : ℚ) (h : 1 ≤ mag) :
    manual_float_conversion neg mag
      = .ok (bitsStr (neg ::
          (pyFormat08b ((bitLen (⌊mag⌋).toNat : ℤ) - 1 + 127) ++ trueMant23 mag))) := by
  have h0 : (0 : ℚ) ≤ mag := by linarith
  have habs : |if neg then -mag else mag| = mag := by
    cases neg <;> simp [abs_of_nonneg h0]
  have hsign : manualSign neg mag = neg := manualSign_of_pos neg mag (by linarith)
  unfold manual_float_conversion
  rw [habs, manualNormalize_of_one_le mag h]
  simp only [hsign]
  rw [manualMantissa_true mag h]

/-! ### Underflow and sign helpers -/

theorem manual_small_error (neg : Bool) (mag : ℚ) (h0 : 0 ≤ mag) (hs : mag < 1 / 2 ^ 23) :
    manual_float_conversion neg mag = .error "substring not found" := by
  have habs : |if neg then -mag else mag| = mag := by cases neg <;> simp [abs_of_nonneg h0]
  have h1 : mag < 1 := lt_of_lt_of_le hs (by norm_num)
  have hfl : ⌊mag⌋ = 0 := by rw [Int.floor_eq_zero_iff]; exact ⟨h0, h1⟩
  unfold manual_float_conversion manualNormalize
  rw [habs, hfl]
  simp only [Int.toNat_zero, Int.cast_zero, sub_zero]
  rw [if_neg (lt_irrefl 0)]
  rw [fracBitsAux_findIdx_none mag h0 hs]

theorem fp32PackBits_head (neg : Bool) (mag : ℚ) (l : List Bool)
    (h : fp32PackBits neg mag = .ok l) : ∃ t, l = neg :: t := by
  simp only [fp32PackBits] at h
  split_ifs at h
  all_goals exact ⟨_, (Except.ok.inj h).symm⟩

theorem native_sign (neg : Bool) (mag : ℚ) (r : IEEE754Single)
    (h : decimal_to_ieee754_single neg mag = .ok r) :
    r.sign = (if neg then "1" else "0") := by
  unfold decimal_to_ieee754_single at h
  cases hp : fp32PackBits neg mag with
  | error e =>
    rw [hp] at h
    exact Except.noConfusion h
  | ok l =>
    rw [hp] at h
    obtain ⟨t, ht⟩ := fp32PackBits_head neg mag l hp
    have hr : r = fieldsOfBits l := by
      simp only [Except.map] at h
      exact (Except.ok.inj h).symm
    rw [hr, ht]
    cases neg <;> rfl

/-! ### Decoder helpers -/

theorem parseBin_ok (l : List Char) (hne : l ≠ []) (hbin : ∀ c ∈ l, c = '0' ∨ c = '1') :
    ∃ n, parseBin l = .ok n := by
  unfold parseBin
  rw [if_neg (by simpa [List.isEmpty_iff] using hne)]
  rw [if_pos]
  · exact ⟨_, rfl⟩
  · rw [List.all_eq_true]
    intro c hc
    rcases hbin c hc with h | h <;> simp [h]

theorem parseBin_error_or (l : List Char) :
    parseBin l = .error "invalid literal for int() with base 2" ∨ ∃ n, parseBin l = .ok n := by
  unfold parseBin
  split_ifs
  · left; rfl
  · right; exact ⟨_, rfl⟩
  · left; rfl

theorem decode_ok_of_binary (s : String) (hbin : ∀ c ∈ s.data, c = '0' ∨ c = '1')
    (hlen : 32 ≤ s.data.length) :
    ∃ v, ieee754_single_to_decimal s = .ok v := by
  have hslice : ∀ k : ℕ, k + 8 ≤ 32 → ∃ n, parseBin ((s.data.drop k).take 8) = .ok n := by
    intro k hk
    apply parseBin_ok
    · have hlen2 : ((s.data.drop k).take 8).length = 8 := by
        rw [List.length_take, List.length_drop]
        omega
      intro hnil
      rw [hnil] at hlen2
      simp at hlen2
    · intro c hc
      exact hbin c (List.mem_of_mem_drop (List.mem_of_mem_take hc))
  obtain ⟨n0, h0⟩ := hslice 0 (by omega)
  obtain ⟨n1, h1⟩ := hslice 8 (by omega)
  obtain ⟨n2, h2⟩ := hslice 16 (by omega)
  obtain ⟨n3, h3⟩ := hslice 24 (by omega)
  unfold ieee754_single_to_decimal
  rw [h0, h1, h2, h3]
  exact ⟨_, rfl⟩

theorem decode_short_error (s : String) (hlen : s.data.length ≤ 24) :
    ieee754_single_to_decimal s = .error "invalid literal for int() with base 2" := by
  have h3 : parseBin ((s.data.drop 24).take 8) = .error "invalid literal for int() with base 2" := by
    have hnil : s.data.drop 24 = [] := List.drop_eq_nil_of_le hlen
    rw [hnil]
    rfl
  unfold ieee754_single_to_decimal
  rcases parseBin_error_or ((s.data.drop 0).take 8) with h0 | ⟨n0, h0⟩ <;>
    rcases parseBin_error_or ((s.data.drop 8).take 8) with h1 | ⟨n1, h1⟩ <;>
      rcases parseBin_error_or ((s.data.drop 16).take 8) with h2 | ⟨n2, h2⟩ <;>
        rw [h0, h1, h2, h3]

/-! ### Claim theorems -/

/-- Claim C1: for every x in {0.5, 1.0, 2.0, -1.0, 0.25, 6.5, 12.375} — values exactly
representable with at most 23 mantissa bits — decoding the 32-bit encoding of x gives
back exactly x: `ieee754_single_to_decimal (decimal_to_ieee754_single x)['full'] == x`. -/
theorem c1_roundtrip_exact :
    encode_then_decode false (1 / 2) = .ok (.finite false (1 / 2)) ∧
    encode_then_decode false 1 = .ok (.finite false 1) ∧
    encode_then_decode false 2 = .ok (.finite false 2) ∧
    encode_then_decode true 1 = .ok (.finite true 1) ∧
    encode_then_decode false (1 / 4) = .ok (.finite false (1 / 4)) ∧
    encode_then_decode false (13 / 2) = .ok (.finite false (13 / 2)) ∧
    encode_then_decode false (99 / 8) = .ok (.finite false (99 / 8)) :=
  of_decide_eq_true (by with_unfolding_all rfl)

/-- Claim C2: encoding 12.375 produces sign bit 0, biased exponent field `10000010`
(130, unbiased exponent 3), mantissa field `10001100000000000000000`, full 32-bit field
`01000001010001100000000000000000`, and decoding that field returns exactly 12.375. -/
theorem c2_encode_12_375 :
    (decimal_to_ieee754_single false (99 / 8)).map (·.sign) = .ok "0" ∧
    (decimal_to_ieee754_single false (99 / 8)).map (·.exponent) = .ok "10000010" ∧
    (decimal_to_ieee754_single false (99 / 8)).map (·.exponent_biased) = .ok 130 ∧
    (decimal_to_ieee754_single false (99 / 8)).map (·.exponent_val) = .ok 3 ∧
    (decimal_to_ieee754_single false (99 / 8)).map (·.mantissa) =
      .ok "10001100000000000000000" ∧
    (decimal_to_ieee754_single false (99 / 8)).map (·.full) =
      .ok "01000001010001100000000000000000" ∧
    ieee754_single_to_decimal "01000001010001100000000000000000" = .ok (.finite false (99 / 8)) :=
  of_decide_eq_true (by with_unfolding_all rfl)

/-- Claim C9: the manual step-by-step encoding of 6.5 yields unbiased exponent 2,
biased exponent field `10000001` (129), mantissa field `10100000000000000000000`, the
returned 32-bit string `01000000110100000000000000000000`, and that string decodes
back to 6.5. -/
theorem c9_manual_6_5 :
    manualExponent (13 / 2) = .ok 2 ∧
    (manualExpField (13 / 2)).map bitsStr = .ok "10000001" ∧
    (manualMantissaField (13 / 2)).map bitsStr = .ok "10100000000000000000000" ∧
    manual_float_conversion false (13 / 2) = .ok "01000000110100000000000000000000" ∧
    ieee754_single_to_decimal "01000000110100000000000000000000" = .ok (.finite false (13 / 2)) :=
  of_decide_eq_true (by with_unfolding_all rfl)

/-- Claim C3 counterexample: for the double-precision value of the literal `0.1`
(3602879701896397 / 2^55), whose binary expansion needs more than 23 mantissa bits,
the mantissa field the manual encoder produces is `10011001100110011000000` — its last
four bits are padding zeros — while the first 23 bits of the true binary expansion are
`10011001100110011001100`.  The claim that the mantissa field always equals the first
23 bits of the true expansion is therefore false at its own cited example. -/
theorem c3_counterexample :
    manualMantissaField ((3602879701896397 : ℚ) / 36028797018963968) ≠
      .ok (trueMant23 ((3602879701896397 : ℚ) / 36028797018963968)) ∧
    (manualMantissaField ((3602879701896397 : ℚ) / 36028797018963968)).map bitsStr =
      .ok "10011001100110011000000" ∧
    bitsStr (trueMant23 ((3602879701896397 : ℚ) / 36028797018963968)) =
      "10011001100110011001100" :=
  of_decide_eq_true (by with_unfolding_all rfl)

/-- Claim C4 counterexample: on `-0.0` (negative flag with zero magnitude) the manual
encoder's sign-bit step computes 0, not 1, because Python evaluates `-0.0 >= 0` as
true — and the conversion then raises `ValueError` instead of returning an encoding. -/
theorem c4_counterexample :
    manualSign true 0 = false ∧
    manual_float_conversion true 0 = .error "substring not found" :=
  of_decide_eq_true (by with_unfolding_all rfl)

/-- Claim C5 counterexample: encoding `+0.0` with the manual encoder does not return
the signed-zero encoding; `frac_binary.index('1')` raises `ValueError: substring not
found` because no 1 digit was generated. -/
theorem c5_counterexample :
    manual_float_conversion false 0 = .error "substring not found" :=
  of_decide_eq_true (by with_unfolding_all rfl)

/-- Claim C6 counterexample: the encoders do not saturate out-of-range exponents.
For 2^130 (biased exponent 257) the manual encoder emits a 33-character string — a
9-bit exponent field — instead of a signed-infinity encoding; for 2^-127 it raises
`ValueError`; and the native packer raises `OverflowError` for 2^130. -/
theorem c6_counterexample :
    (manual_float_conversion false ((2 : ℚ) ^ (130 : ℕ))).map String.length = .ok 33 ∧
    manual_float_conversion false (1 / (2 : ℚ) ^ (127 : ℕ)) = .error "substring not found" ∧
    decimal_to_ieee754_single false ((2 : ℚ) ^ (130 : ℕ)) =
      .error "float too large to pack with f format" :=
  of_decide_eq_true (by with_unfolding_all rfl)

/-- Claim C7 counterexample: a 33-character all-zero bit string is not 32 characters
long, yet the decoder silently truncates it to its first 32 bits and returns `+0.0`
instead of signalling an error. -/
theorem c7_counterexample :
    ieee754_single_to_decimal "000000000000000000000000000000000" = .ok (.finite false 0) :=
  of_decide_eq_true (by with_unfolding_all rfl)

/-- Claim C10 counterexample: `x = (2^23 + 1) / 2^24 = 0.500000059604644775390625` is
exactly representable (24 significand bits, biased exponent 126), yet the manual
encoder loses the lowest mantissa bit — it generates only 23 fractional digits before
normalizing — and returns the encoding of 0.5, while the native packer keeps it. -/
theorem c10_counterexample :
    (decimal_to_ieee754_single false ((8388609 : ℚ) / 16777216)).map (·.full) =
      .ok "00111111000000000000000000000001" ∧
    manual_float_conversion false ((8388609 : ℚ) / 16777216) =
      .ok "00111111000000000000000000000000" ∧
    (decimal_to_ieee754_single false ((8388609 : ℚ) / 16777216)).map (·.full) ≠
      manual_float_conversion false ((8388609 : ℚ) / 16777216) :=
  of_decide_eq_true (by with_unfolding_all rfl)

theorem bitsStr_length (l : List Bool) : (bitsStr l).length = l.length := by
  show (String.mk (l.map bitChar)).length = l.length
  rw [show (String.mk (l.map bitChar)).length = (l.map bitChar).length from rfl]
  rw [List.length_map]

theorem pyFormat08b_length (n : ℤ) : (pyFormat08b n).length = max 8 (bitLen n.toNat) :=
  padBits_length _ _

theorem trueMant23_length (mag : ℚ) : (trueMant23 mag).length = 23 := by
  unfold trueMant23
  rw [List.length_map, List.length_range]

theorem dyadic_one_le (M e : ℕ) (hM1 : 2 ^ 23 ≤ M) (hM2 : M < 2 ^ 24) :
    1 ≤ (M : ℚ) * 2 ^ ((e : ℤ) - 23) := by
  obtain ⟨hlo, _⟩ := dyadic_bounds M e hM1 hM2
  calc (1 : ℚ) = 2 ^ (0 : ℤ) := by norm_num
    _ ≤ 2 ^ (e : ℤ) := by
        apply zpow_le_zpow_right₀ (by norm_num)
        omega
    _ ≤ _ := hlo

/-- Claim C3 (amended): for every x with integer part at least 1, the manual encoder's
mantissa field equals the first 23 bits of the true binary expansion of the normalized
significand — right-truncated, never rounded up, and zero-padded on the right when the
expansion terminates early.  (For |x| < 1 the encoder generates only 23 fractional
digits before normalizing, so true expansion bits beyond the generated digits are
replaced by zero padding, as `c3_counterexample` shows at 0.1.) -/
theorem c3_amended (mag : ℚ) (h : 1 ≤ mag) :
    manualMantissaField mag = .ok (trueMant23 mag) := by
  unfold manualMantissaField
  rw [manualNormalize_of_one_le mag h]
  simp only [Except.map]
  rw [manualMantissa_true mag h]

theorem c3_witness :
    (1 : ℚ) ≤ 13 / 2 ∧
    manualMantissaField (13 / 2) = .ok (trueMant23 (13 / 2)) ∧
    (manualMantissaField (13 / 2)).map bitsStr = .ok "10100000000000000000000" :=
  ⟨by norm_num, c3_amended (13 / 2) (by norm_num),
   of_decide_eq_true (by with_unfolding_all rfl)⟩

/-- Claim C4 (amended): the manual encoder's sign bit is 1 iff x is strictly negative —
negative zero gets sign bit 0, because Python's `-0.0 >= 0` is true, and the manual
conversion of either zero then raises.  The native packer `decimal_to_ieee754_single`
does preserve the sign of zero: its sign field is `'1'` exactly when the negative flag
is set, so encoding -0.0 gives sign `'1'` and encoding 0.0 gives sign `'0'`. -/
theorem c4_amended :
    (∀ (neg : Bool) (mag : ℚ), 0 ≤ mag →
       (manualSign neg mag = true ↔ (neg = true ∧ 0 < mag))) ∧
    (∀ (neg : Bool) (mag : ℚ) (r : IEEE754Single),
       decimal_to_ieee754_single neg mag = .ok r → r.sign = (if neg then "1" else "0")) ∧
    (decimal_to_ieee754_single true 0).map (·.sign) = .ok "1" ∧
    (decimal_to_ieee754_single false 0).map (·.sign) = .ok "0" := by
  refine ⟨?_, ?_, ?_, ?_⟩
  · intro neg mag h0
    cases neg
    · simp only [manualSign, Bool.false_eq_true, if_false, decide_eq_true_eq, false_and,
        iff_false, not_lt]
      linarith
    · simp only [manualSign, if_true, decide_eq_true_eq, true_and]
      constructor
      · intro hlt; linarith
      · intro hlt; linarith
  · intro neg mag r h
    exact native_sign neg mag r h
  · exact of_decide_eq_true (by with_unfolding_all rfl)
  · exact of_decide_eq_true (by with_unfolding_all rfl)

theorem c4_witness :
    ((0 : ℚ) ≤ 5 ∧ (manualSign true 5 = true ↔ (true = true ∧ (0 : ℚ) < 5))) ∧
    (decimal_to_ieee754_single true 5).map (·.sign) = .ok "1" :=
  ⟨⟨by norm_num, c4_amended.1 true 5 (by norm_num)⟩,
   of_decide_eq_true (by with_unfolding_all rfl)⟩

/-- Claim C5 (amended): for zero of either sign, and for every magnitude below 2^-23
(no 1 bit among the 23 generated fractional digits), the manual encoder does not
return a signed-zero encoding: `frac_binary.index('1')` raises `ValueError: substring
not found`. -/
theorem c5_amended (neg : Bool) (mag : ℚ) (h0 : 0 ≤ mag) (hs : mag < 1 / 2 ^ 23) :
    manual_float_conversion neg mag = .error "substring not found" :=
  manual_small_error neg mag h0 hs

theorem c5_witness :
    ((0 : ℚ) ≤ 1 / 2 ^ 30 ∧ (1 : ℚ) / 2 ^ 30 < 1 / 2 ^ 23) ∧
    manual_float_conversion false (1 / 2 ^ 30) = .error "substring not found" :=
  ⟨⟨by norm_num, by norm_num⟩, c5_amended false (1 / 2 ^ 30) (by norm_num) (by norm_num)⟩

/-- Claim C6 (amended): the encoders do not saturate out-of-range exponents to signed
infinity.  For every exactly-representable magnitude `M * 2^(e-23)` with biased
exponent `e + 127 ≥ 256` the manual encoder returns a string of at least 33 characters
(the `format(_, '08b')` exponent field widens beyond 8 bits); and for every magnitude
below 2^-23 — exponent underflow — it raises `ValueError` instead of returning a
signed zero. -/
theorem c6_amended :
    (∀ (neg : Bool) (M e : ℕ), 2 ^ 23 ≤ M → M < 2 ^ 24 → 129 ≤ e →
       ∃ s, manual_float_conversion neg ((M : ℚ) * 2 ^ ((e : ℤ) - 23)) = .ok s ∧
         33 ≤ s.length) ∧
    (∀ (neg : Bool) (mag : ℚ), 0 ≤ mag → mag < 1 / 2 ^ 23 →
       manual_float_conversion neg mag = .error "substring not found") := by
  constructor
  · intro neg M e hM1 hM2 he
    have hmag1 : 1 ≤ (M : ℚ) * 2 ^ ((e : ℤ) - 23) := dyadic_one_le M e hM1 hM2
    refine ⟨_, manual_of_one_le neg _ hmag1, ?_⟩
    rw [bitsStr_length, List.length_cons, List.length_append]
    rw [trueMant23_length, pyFormat08b_length]
    rw [bitLen_floor_dyadic M e hM1 hM2]
    have harg : (((e + 1 : ℕ) : ℤ) - 1 + 127).toNat = e + 127 := by omega
    rw [harg]
    have h9 : 9 ≤ bitLen (e + 127) := by
      by_contra hcon
      have := lt_of_bitLen_le (e + 127) 8 (by omega)
      omega
    omega
  · intro neg mag h0 hs
    exact manual_small_error neg mag h0 hs

theorem c6_witness :
    (∃ s, manual_float_conversion false (((8388608 : ℕ) : ℚ) * 2 ^ (((130 : ℕ) : ℤ) - 23))
        = .ok s ∧ 33 ≤ s.length) ∧
    manual_float_conversion true (1 / 2 ^ 40) = .error "substring not found" :=
  ⟨c6_amended.1 false 8388608 130 (by norm_num) (by norm_num) (by norm_num),
   c6_amended.2 true (1 / 2 ^ 40) (by norm_num) (by norm_num)⟩

/-- Claim C7 (amended): the decoder validates nothing beyond what `int(_, 2)` checks.
It reads only the first 32 characters, so any well-formed overlong bit string is
silently truncated and decoded with no error; a bit string of at most 24 characters
raises `ValueError` from `int('', 2)` — not a dedicated `InvalidEncodingError` — and
strings of 25 to 31 characters parse a short final byte slice silently. -/
theorem c7_amended :
    (∀ s : String, (∀ c ∈ s.data, c = '0' ∨ c = '1') → 32 ≤ s.length →
       ∃ v, ieee754_single_to_decimal s = .ok v) ∧
    (∀ s : String, s.length ≤ 24 →
       ieee754_single_to_decimal s = .error "invalid literal for int() with base 2") := by
  constructor
  · intro s hbin hlen
    exact decode_ok_of_binary s hbin hlen
  · intro s hlen
    exact decode_short_error s hlen

theorem c7_witness :
    (∃ v, ieee754_single_to_decimal "111111111111111111111111111111111" = .ok v) ∧
    ieee754_single_to_decimal "0000" = .error "invalid literal for int() with base 2" :=
  ⟨c7_amended.1 "111111111111111111111111111111111" (by decide) (by decide),
   c7_amended.2 "0000" (by decide)⟩

/-- Claim C8: the decoder is total on well-formed inputs — every 32-character string
of `'0'`/`'1'` characters maps to exactly one defined `FloatVal` (finite, signed zero
or subnormal via exponent field 0, signed infinity, or NaN) and is never rejected. -/
theorem c8_decode_total (s : String) (hlen : s.length = 32)
    (hbin : ∀ c ∈ s.data, c = '0' ∨ c = '1') :
    ∃ v, ieee754_single_to_decimal s = .ok v := by
  apply decode_ok_of_binary s hbin
  have hd : s.length = s.data.length := rfl
  omega

theorem c8_witness :
    (("01111111100000000000000000000000" : String).length = 32 ∧
      ∀ c ∈ ("01111111100000000000000000000000" : String).data, c = '0' ∨ c = '1') ∧
    (∃ v, ieee754_single_to_decimal "01111111100000000000000000000000" = .ok v) :=
  ⟨⟨by decide, by decide⟩,
   c8_decode_total "01111111100000000000000000000000" (by decide) (by decide)⟩

/-- Claim C10 (amended): for every nonzero x exactly representable in IEEE 754 single
precision with magnitude at least 1 — significand `M` with `2^23 ≤ M < 2^24` and
exponent `0 ≤ e ≤ 127`, i.e. biased exponent in [127, 254] — the manual encoder and
the native packer agree: `manual_float_conversion x` equals
`decimal_to_ieee754_single(x)['full']`.  (Below 1 they can disagree: the manual
fractional loop generates only 23 digits, see `c10_counterexample`.) -/
theorem c10_amended (neg : Bool) (M e : ℕ) (hM1 : 2 ^ 23 ≤ M) (hM2 : M < 2 ^ 24)
    (he : e ≤ 127) :
    (decimal_to_ieee754_single neg ((M : ℚ) * 2 ^ ((e : ℤ) - 23))).map (·.full)
      = manual_float_conversion neg ((M : ℚ) * 2 ^ ((e : ℤ) - 23)) := by
  have hmag1 : 1 ≤ (M : ℚ) * 2 ^ ((e : ℤ) - 23) := dyadic_one_le M e hM1 hM2
  rw [manual_of_one_le neg _ hmag1]
  unfold decimal_to_ieee754_single
  rw [fp32PackBits_exact neg M e hM1 hM2 he]
  simp only [Except.map]
  congr 1
  rw [bitLen_floor_dyadic M e hM1 hM2, trueMant23_dyadic M e hM1 hM2]
  rw [show (((e + 1 : ℕ) : ℤ) - 1 + 127) = ((e + 127 : ℕ) : ℤ) from by push_cast; ring]
  rw [pyFormat08b_of_lt _ (by positivity) (by exact_mod_cast (by omega : e + 127 < 256))]
  rw [Int.toNat_natCast]
  rfl

theorem c10_witness :
    (decimal_to_ieee754_single false (((13631488 : ℕ) : ℚ) * 2 ^ (((2 : ℕ) : ℤ) - 23))).map (·.full)
      = manual_float_conversion false (((13631488 : ℕ) : ℚ) * 2 ^ (((2 : ℕ) : ℤ) - 23)) ∧
    manual_float_conversion false (((13631488 : ℕ) : ℚ) * 2 ^ (((2 : ℕ) : ℤ) - 23))
      = .ok "01000000110100000000000000000000" :=
  ⟨c10_amended false 13631488 2 (by norm_num) (by norm_num) (by norm_num),
   of_decide_eq_true (by with_unfolding_all rfl)⟩
